import Mathlib

/-!
Verification of the reactive-engine core of the `clocks` repository.

The definitions below are a shallow embedding of the JavaScript source
(`src/unnamed/part_000`).  Values stored in cells and lists are modelled as
opaque elements of a type `α` with decidable equality (JavaScript strict
equality `!==` on the stored values); callbacks are modelled as opaque
identifiers of a type `κ`, and an "invocation" of a callback with a value is
recorded as a pair `(κ × α)` in a notification list, in the order the source
iterates its callback `Set` (insertion order).
-/

section ReactivePrimitiveModel

variable {α : Type} {κ : Type}

/--
Model of `class ReactivePrimitive`: a current value `#value` and the ordered
set `#callbacks` (a JS `Set` iterates in insertion order and holds no
duplicates, so it is modelled as a list, with `List.Nodup` assumed where the
uniqueness matters).
-/
structure ReactivePrimitive (α : Type) (κ : Type) where
  value : α
  callbacks : List κ
deriving DecidableEq

/--
`ReactivePrimitive.set(value, ...noUpdate)`:
```js
set(value, ...noUpdate) {
    if (value !== this.#value) {
        this.#value = value;
        [...this.#callbacks.values()]
            .filter(cb => !noUpdate.includes(cb))
            .forEach(cb => cb(value));
    }
    return this;
}
```
Returns the state after the call together with the list of callback
invocations the call performs (callback identifier paired with the argument
it is called with).
-/
def ReactivePrimitive.set [DecidableEq α] [DecidableEq κ]
    (s : ReactivePrimitive α κ) (value : α) (noUpdate : List κ) :
    ReactivePrimitive α κ × List (κ × α) :=
  if value ≠ s.value then
    (ReactivePrimitive.mk value s.callbacks,
      (s.callbacks.filter (fun cb => ¬ noUpdate.contains cb)).map (fun cb => (cb, value)))
  else
    (s, [])

/--
`ReactivePrimitive.update()`:
```js
update() {
    this.set(this.#value);
    return this;
}
```
-/
def ReactivePrimitive.update [DecidableEq α] [DecidableEq κ]
    (s : ReactivePrimitive α κ) : ReactivePrimitive α κ × List (κ × α) :=
  s.set s.value []

/--
`ReactivePrimitive.bind(callback, noFirstCall)`: adds the callback to the
`Set` (a no-op when already present) and, unless suppressed, invokes it once
with the current value.
-/
def ReactivePrimitive.bind [DecidableEq α] [DecidableEq κ]
    (s : ReactivePrimitive α κ) (callback : κ) (noFirstCall : Bool) :
    ReactivePrimitive α κ × List (κ × α) :=
  (ReactivePrimitive.mk s.value
      (if s.callbacks.contains callback then s.callbacks else s.callbacks ++ [callback]),
    if noFirstCall then [] else [(callback, s.value)])

end ReactivePrimitiveModel

section ReactivePrimitiveLemmas

variable {α : Type} {κ : Type} [DecidableEq α] [DecidableEq κ]

theorem set_eq_of_ne (s : ReactivePrimitive α κ) (v : α) (noUpdate : List κ)
    (h : v ≠ s.value) :
    s.set v noUpdate =
      (ReactivePrimitive.mk v s.callbacks,
        (s.callbacks.filter (fun cb => ¬ noUpdate.contains cb)).map (fun cb => (cb, v))) := by
  simp [ReactivePrimitive.set, h]

theorem set_eq_of_eq (s : ReactivePrimitive α κ) (v : α) (noUpdate : List κ)
    (h : v = s.value) :
    s.set v noUpdate = (s, []) := by
  simp [ReactivePrimitive.set, h]

theorem count_pair_map (l : List κ) (cb : κ) (v : α) :
    (l.map (fun c => (c, v))).count (cb, v) = l.count cb := by
  induction l with
  | nil => simp
  | cons a l ih =>
      by_cases h : a = cb
      · simp [List.count_cons, h, ih]
      · have h2 : ¬ ((a, v) = (cb, v)) := by
          intro hc
          exact h (congrArg Prod.fst hc)
        simp [List.count_cons, h, h2, ih]

/--
C1.  The claim states that `update()` re-emits the current value to every
subscriber.  In the source, `update()` calls `set(this.#value)`, and `set`
only notifies when `value !== this.#value`; since the argument is the stored
value itself, the guard always fails and **no** callback is ever invoked:
for every cell state, `update()` performs zero invocations and leaves the
state unchanged.  This contradicts the method's own documentation comment
("Forces an update event to be dispatched."), so it is a bug in the code.
-/
theorem c1_primitive_update_emits_nothing (s : ReactivePrimitive ℤ ℕ) :
    (s.update).2 = [] ∧ (s.update).1 = s := by
  constructor
  · simp [ReactivePrimitive.update, set_eq_of_eq]
  · simp [ReactivePrimitive.update, set_eq_of_eq]

/--
C2.  A `set(x)` whose argument is strictly equal to the stored value performs
no notification at all; consequently in the sequence `cell.set(x); cell.set(x)`
(with `x` different from the prior value) the second call is silent, and each
subscriber is invoked exactly once in total across the two calls.
-/
theorem c2_set_identity_suppression (s : ReactivePrimitive α κ) (x : α) (cb : κ)
    (hne : x ≠ s.value) (hcb : cb ∈ s.callbacks) (hnd : s.callbacks.Nodup) :
    (∀ t : ReactivePrimitive α κ, (t.set t.value []).2 = []) ∧
    ((s.set x []).1.set x []).2 = [] ∧
    ((s.set x []).2 ++ ((s.set x []).1.set x []).2).count (cb, x) = 1 := by
  have h1 := set_eq_of_ne s x [] hne
  refine ⟨fun t => by simp [set_eq_of_eq], ?_, ?_⟩
  · rw [h1]
    exact congrArg Prod.snd (set_eq_of_eq _ x [] rfl)
  · rw [h1]
    have h2 : ((ReactivePrimitive.mk x s.callbacks : ReactivePrimitive α κ).set x []).2 = [] :=
      congrArg Prod.snd (set_eq_of_eq _ x [] rfl)
    simp only [h2, List.append_nil]
    have hfil : s.callbacks.filter (fun cb => ¬ ([] : List κ).contains cb) = s.callbacks := by
      simp
    rw [hfil, count_pair_map]
    exact List.count_eq_one_of_mem hnd hcb

/--
C3.  `set(v, cbA)` with `v` different from the stored value invokes every
subscriber other than `cbA` exactly once (each such invocation passing `v`),
and never invokes `cbA`: the source filters the callback set with
`!noUpdate.includes(cb)` before invoking.
-/
theorem c3_set_exclusion (s : ReactivePrimitive α κ) (v : α) (cbA cb : κ)
    (hne : v ≠ s.value) :
    (∀ w : α, (cbA, w) ∉ (s.set v [cbA]).2) ∧
    (∀ p ∈ (s.set v [cbA]).2, p.2 = v) ∧
    (cb ∈ s.callbacks → cb ≠ cbA → s.callbacks.Nodup →
      (s.set v [cbA]).2.count (cb, v) = 1) := by
  rw [set_eq_of_ne s v [cbA] hne]
  refine ⟨?_, ?_, ?_⟩
  · intro w hw
    simp only [List.mem_map, List.mem_filter] at hw
    obtain ⟨c, ⟨_, hc2⟩, hc3⟩ := hw
    have : c = cbA := congrArg Prod.fst hc3
    subst this
    simp at hc2
  · intro p hp
    simp only [List.mem_map] at hp
    obtain ⟨c, _, hc⟩ := hp
    rw [← hc]
  · intro hcb hneA hnd
    rw [count_pair_map]
    refine List.count_eq_one_of_mem (hnd.filter _) ?_
    simp only [List.mem_filter, decide_eq_true_eq]
    refine ⟨hcb, ?_⟩
    simp [hneA]

theorem c2_witness :
    ((ReactivePrimitive.mk (0 : ℤ) [7, 8]).set 5 []).2 ++
        (((ReactivePrimitive.mk (0 : ℤ) [7, 8]).set 5 []).1.set 5 []).2 = [(7, 5), (8, 5)] ∧
    (((ReactivePrimitive.mk (0 : ℤ) [7, 8]).set 5 []).1.set 5 []).2 = [] := by
  have h := c2_set_identity_suppression (ReactivePrimitive.mk (0 : ℤ) [7, 8]) 5 7
    (by decide) (by decide) (by decide)
  exact ⟨by decide, h.2.1⟩

theorem c3_witness :
    ((ReactivePrimitive.mk (0 : ℤ) [7, 8, 9]).set 5 [8]).2.count (7, 5) = 1 ∧
    (∀ w : ℤ, (8, w) ∉ ((ReactivePrimitive.mk (0 : ℤ) [7, 8, 9]).set 5 [8]).2) := by
  have h := c3_set_exclusion (ReactivePrimitive.mk (0 : ℤ) [7, 8, 9]) 5 8 7 (by decide)
  exact ⟨h.2.2 (by decide) (by decide) (by decide), h.1⟩

end ReactivePrimitiveLemmas

section ReactiveArrayModel

variable {α : Type}

/--
Model of `class ReactiveArray` restricted to the state the list claims are
about: `#value` (the item array, `items` here) and `#indices` (the array of
`ReactivePrimitive<number>` index handles, modelled by their current numeric
values).  Items are opaque; `makeNonPrimitiveItemsReactive` is the identity
on the primitive/opaque values the claims quantify over.  The constructor
`new ReactiveArray(...input)` sets `#indices = input.map((_, i) => new
ReactivePrimitive(i))`.
-/
structure ReactiveArray (α : Type) where
  items : List α
  indices : List Int
deriving DecidableEq

/--
JavaScript `Array.prototype.splice(start, deleteCount, ...items)` for a
non-negative `start` and `deleteCount` (the arguments the claims quantify
over): returns the mutated array and the removed elements.  `deleteCount`
larger than `length - start` is clamped, exactly as in JS.
-/
def jsSplice (l : List α) (start deleteCount : Nat) (items : List α) :
    List α × List α :=
  (l.take start ++ items ++ l.drop (start + deleteCount),
    (l.drop start).take deleteCount)

/--
`ReactiveArray._adjustIndices(start, deleteCount, items)`:
```js
_adjustIndices(start, deleteCount, items) {
    const shiftedBy = items.length - deleteCount;
    if (shiftedBy) {
        for (let i = start + deleteCount; i < this.#indices.length; i++) {
            this.#indices[i].value += shiftedBy;
        }
    }
    const removedIndices = this.#indices.splice(start, deleteCount,
        ...items.map((_, i) => new ReactivePrimitive(i + start)));
    for (const removedIndex of removedIndices) {
        removedIndex.value = -1;
    }
}
```
The `for` loop over `i ≥ start + deleteCount` is `take`/`drop`/`map`; the
function returns the new `#indices` contents together with the final values
of the removed index handles (each set to `-1`).
-/
def adjustIndices (indices : List Int) (start deleteCount itemCount : Nat) :
    List Int × List Int :=
  let shiftedBy : Int := (itemCount : Int) - (deleteCount : Int)
  let shifted : List Int :=
    if shiftedBy = 0 then indices
    else indices.take (start + deleteCount) ++
      (indices.drop (start + deleteCount)).map (fun v => v + shiftedBy)
  let inserted : List Int := (List.range itemCount).map (fun i => ((i + start : Nat) : Int))
  let spl := jsSplice shifted start deleteCount inserted
  (spl.1, spl.2.map (fun _ => (-1 : Int)))

/--
`ReactiveArray.splice(start, deleteCount, ...items)`:
```js
splice(start, deleteCount = this.#value.length - start, ...items) {
    if (start > this.#value.length) {
        throw new RangeError(`Out of bounds assignment: ...`);
    }
    this._adjustIndices(start, deleteCount, items);
    const reactiveItems = makeNonPrimitiveItemsReactive(items, this);
    const deletedItems = this.#value.splice(start, deleteCount, ...reactiveItems);
    this._dispatchUpdateEvents(start, deleteCount, reactiveItems);
    return deletedItems;
}
```
Returns the state after the call (unchanged when the range check throws,
since the throw precedes every mutation) and either the `RangeError` message
or the pair of (deleted items, final values of the removed index handles).
-/
def ReactiveArray.splice (s : ReactiveArray α) (start deleteCount : Nat)
    (items : List α) : ReactiveArray α × Except String (List α × List Int) :=
  if s.items.length < start then
    (s, Except.error ("Out of bounds assignment: tried to assign to index " ++
      toString start ++ ", but array length was only " ++ toString s.items.length ++
      ". Sparse arrays are not allowed. Consider using .push() instead."))
  else
    let adj := adjustIndices s.indices start deleteCount items.length
    let spl := jsSplice s.items start deleteCount items
    (ReactiveArray.mk spl.1 adj.1, Except.ok (spl.2, adj.2))

/--
The per-call results of a sequence of `splice` calls: the state after each
call paired with the final values of the index handles that call removed.
A call whose range check throws aborts the sequence (the exception
propagates), so only successful calls contribute entries.
-/
def spliceSeq (s : ReactiveArray α) :
    List (Nat × Nat × List α) → List (ReactiveArray α × List Int)
  | [] => []
  | e :: rest =>
    let r := s.splice e.1 e.2.1 e.2.2
    match r.2 with
    | Except.error _ => []
    | Except.ok pr => (r.1, pr.2) :: spliceSeq r.1 rest

/-- `idxList a n = [a, a+1, ..., a+n-1]` as integers. -/
def idxList (a : Int) : Nat → List Int
  | 0 => []
  | n + 1 => a :: idxList (a + 1) n

/--
The index-handle invariant of `ReactiveArray`: there is one handle per item
and the handle at position `i` holds the value `i` (so every surviving
handle equals its item's current position and every handle created for an
inserted item equals that item's insertion position).  It holds for the
constructor state, whose handles are `input.map((_, i) => new
ReactivePrimitive(i))`.
-/
def indexHandlesOk (s : ReactiveArray α) : Prop :=
  s.indices = idxList 0 s.items.length

instance (s : ReactiveArray α) : Decidable (indexHandlesOk s) := by
  unfold indexHandlesOk
  infer_instance

/--
JavaScript `Array.prototype.slice(start, end)` for non-negative arguments:
elements from `start` (inclusive) to `end` (exclusive).
-/
def jsArraySlice (l : List α) (start endIdx : Nat) : List α :=
  (l.take endIdx).drop start

/--
The initial contents of the derived array built by `ReactiveArray.slice`:
```js
slice(start = 0, end = this.#value.length - 1) {
    const newArr = new ReactiveArray(...this.#value.slice(start, end));
    ...
}
```
`none` for the second argument means the argument was omitted, so the
source's default `this.#value.length - 1` applies.
-/
def ReactiveArray.sliceInit (s : ReactiveArray α) (start : Nat)
    (endIdx : Option Nat) : List α :=
  jsArraySlice s.items start (endIdx.getD (s.items.length - 1))

end ReactiveArrayModel


section IdxListLemmas

theorem idxList_length (a : Int) (n : Nat) : (idxList a n).length = n := by
  induction n generalizing a with
  | zero => rfl
  | succ n ih => simp [idxList, ih]

theorem idxList_take (a : Int) (n k : Nat) :
    (idxList a n).take k = idxList a (min k n) := by
  induction n generalizing a k with
  | zero => simp [idxList]
  | succ n ih =>
      cases k with
      | zero => simp [idxList]
      | succ k =>
          rw [idxList, List.take_succ_cons, ih, Nat.succ_min_succ, idxList]

theorem idxList_drop (a : Int) (n k : Nat) :
    (idxList a n).drop k = idxList (a + k) (n - k) := by
  induction n generalizing a k with
  | zero => simp [idxList]
  | succ n ih =>
      cases k with
      | zero => simp
      | succ k =>
          rw [idxList, List.drop_succ_cons, ih, Nat.succ_sub_succ]
          congr 1
          push_cast
          ring

theorem idxList_map_add (a s : Int) (n : Nat) :
    (idxList a n).map (fun v => v + s) = idxList (a + s) n := by
  induction n generalizing a with
  | zero => rfl
  | succ n ih =>
      rw [idxList, List.map_cons, ih, idxList]
      congr 2
      ring

theorem idxList_append (a : Int) (m n : Nat) :
    idxList a m ++ idxList (a + m) n = idxList a (m + n) := by
  induction m generalizing a with
  | zero => simp [idxList]
  | succ m ih =>
      have h1 : a + ((m : Nat) + 1 : Nat) = (a + 1) + m := by push_cast; ring
      have h2 : (m + 1) + n = (m + n) + 1 := by omega
      rw [idxList, List.cons_append, h1, ih, h2, idxList]

theorem idxList_congr (a b : Int) (n : Nat) (h : a = b) :
    idxList a n = idxList b n := by
  rw [h]

theorem range_map_add_cast (a n : Nat) :
    (List.range n).map (fun i => ((i + a : Nat) : Int)) = idxList a n := by
  induction n generalizing a with
  | zero => rfl
  | succ n ih =>
      rw [List.range_succ, List.map_append, ih]
      have h1 : idxList (a : Int) (n + 1) = idxList a n ++ idxList ((a : Int) + n) 1 :=
        (idxList_append a n 1).symm
      rw [h1]
      simp [idxList]
      ring

end IdxListLemmas

section ReactiveArrayLemmas

variable {α : Type}

theorem idxList_zero (a : Int) : idxList a 0 = [] := rfl

theorem splice_eq_of_le (s : ReactiveArray α) (start d : Nat) (items : List α)
    (hle : start ≤ s.items.length) :
    s.splice start d items =
      (ReactiveArray.mk (jsSplice s.items start d items).1
          (adjustIndices s.indices start d items.length).1,
        Except.ok ((jsSplice s.items start d items).2,
          (adjustIndices s.indices start d items.length).2)) := by
  unfold ReactiveArray.splice
  rw [if_neg (Nat.not_lt_of_le hle)]

theorem splice_eq_of_gt (s : ReactiveArray α) (start d : Nat) (items : List α)
    (hgt : s.items.length < start) :
    (s.splice start d items).1 = s ∧
    ∃ msg, (s.splice start d items).2 = Except.error msg := by
  unfold ReactiveArray.splice
  rw [if_pos hgt]
  exact ⟨rfl, _, rfl⟩

theorem adjustIndices_fst (n start d m : Nat) (hs : start ≤ n) :
    (adjustIndices (idxList 0 n) start d m).1 =
      idxList 0 (start + m + (n - (start + d))) := by
  unfold adjustIndices jsSplice
  simp only []
  have hins : (List.range m).map (fun i => ((i + start : Nat) : Int)) = idxList start m :=
    range_map_add_cast start m
  by_cases hsb : ((m : Int) - (d : Int)) = 0
  · rw [if_pos hsb, hins, idxList_take, idxList_drop]
    have hmd : m = d := by omega
    have h1 : min start n = start := Nat.min_eq_left hs
    rw [h1]
    have h2 : idxList ((0 : Int) + ((start + d : Nat) : Int)) (n - (start + d)) =
        idxList ((0 : Int) + ((start + m : Nat) : Int)) (n - (start + d)) := by
      apply idxList_congr
      push_cast
      omega
    rw [h2]
    have h4 : idxList ((start : Nat) : Int) m = idxList ((0 : Int) + ((start : Nat) : Int)) m := by
      apply idxList_congr
      ring
    rw [h4, idxList_append 0 start m, idxList_append 0 (start + m) (n - (start + d))]
  · rw [if_neg hsb, idxList_take, idxList_drop, idxList_map_add, hins]
    have hmin : min (start + d) n - (start + d) = 0 := by omega
    have htk : (idxList (0 : Int) (min (start + d) n) ++
        idxList ((0 : Int) + ((start + d : Nat) : Int) + ((m : Int) - (d : Int)))
          (n - (start + d))).take start = idxList 0 start := by
      simp only [List.take_append_eq_append_take, idxList_length, idxList_take]
      have e1 : start - min (start + d) n = 0 := by omega
      have e2 : min start (min (start + d) n) = start := by omega
      rw [e1, e2]
      simp [idxList_zero]
    have hdr : (idxList (0 : Int) (min (start + d) n) ++
        idxList ((0 : Int) + ((start + d : Nat) : Int) + ((m : Int) - (d : Int)))
          (n - (start + d))).drop (start + d) = idxList ((start + m : Nat)) (n - (start + d)) := by
      rw [List.drop_append_eq_append_drop, idxList_length, idxList_drop, hmin, idxList_zero,
        List.nil_append, idxList_drop]
      rcases le_or_lt (start + d) n with hle | hlt
      · have e1 : start + d - min (start + d) n = 0 := by omega
        rw [e1, Nat.sub_zero]
        apply idxList_congr
        push_cast
        ring
      · have e1 : n - (start + d) = 0 := by omega
        rw [e1]
        rw [Nat.zero_sub, idxList_zero, idxList_zero]
    rw [htk, hdr]
    have h3 : idxList ((start : Nat) : Int) m = idxList ((0 : Int) + ((start : Nat) : Int)) m := by
      apply idxList_congr
      ring
    have h5 : idxList (((start + m : Nat) : Nat) : Int) (n - (start + d)) =
        idxList ((0 : Int) + ((start + m : Nat) : Int)) (n - (start + d)) := by
      apply idxList_congr
      ring
    rw [h3, idxList_append 0 start m, h5, idxList_append 0 (start + m) (n - (start + d))]

theorem splice_length_fst (s : ReactiveArray α) (start d : Nat) (items : List α)
    (hs : start ≤ s.items.length) :
    (jsSplice s.items start d items).1.length =
      start + items.length + (s.items.length - (start + d)) := by
  unfold jsSplice
  simp only [List.length_append, List.length_take, List.length_drop]
  omega

/-- A successful `splice` call preserves the index-handle invariant, and the
index handles it removed all end at `-1`. -/
theorem splice_preserves_inv (s : ReactiveArray α) (start d : Nat) (items : List α)
    (pr : List α × List Int) (hinv : indexHandlesOk s)
    (hok : (s.splice start d items).2 = Except.ok pr) :
    indexHandlesOk (s.splice start d items).1 ∧ ∀ x ∈ pr.2, x = -1 := by
  by_cases hs : s.items.length < start
  · exfalso
    obtain ⟨-, msg, herr⟩ := splice_eq_of_gt s start d items hs
    rw [herr] at hok
    exact Except.noConfusion hok
  · have hle : start ≤ s.items.length := Nat.le_of_not_lt hs
    have heq := splice_eq_of_le s start d items hle
    rw [heq] at hok ⊢
    constructor
    · unfold indexHandlesOk at hinv ⊢
      simp only []
      rw [hinv, adjustIndices_fst s.items.length start d items.length hle,
        splice_length_fst s start d items hle]
    · have hpr : pr = ((jsSplice s.items start d items).2,
          (adjustIndices s.indices start d items.length).2) := by
        simp only [] at hok
        exact ((Except.ok.injEq _ _).mp hok.symm)
      rw [hpr]
      intro x hx
      unfold adjustIndices at hx
      simp only [List.mem_map] at hx
      obtain ⟨y, -, hy⟩ := hx
      exact hy.symm

/--
C4.  For every sequence of valid `splice(start, deleteCount, ...items)`
calls, after each call the index-handle array equals
`[0, 1, ..., items.length - 1]` — it has the same length as the item array,
every surviving handle's value equals its item's current position, and every
handle created for an inserted item equals that item's insertion position —
and every index handle removed by a call has final value `-1`.
-/
theorem c4_splice_index_handles (s : ReactiveArray α)
    (edits : List (Nat × Nat × List α)) (hinv : indexHandlesOk s) :
    ∀ r ∈ spliceSeq s edits, indexHandlesOk r.1 ∧ ∀ x ∈ r.2, x = -1 := by
  induction edits generalizing s with
  | nil =>
      intro r hr
      simp [spliceSeq] at hr
  | cons e rest ih =>
      intro r hr
      unfold spliceSeq at hr
      simp only [] at hr
      rcases hok : (s.splice e.1 e.2.1 e.2.2).2 with msg | pr
      · rw [hok] at hr
        simp at hr
      · rw [hok] at hr
        have hstep := splice_preserves_inv s e.1 e.2.1 e.2.2 pr hinv hok
        simp only [List.mem_cons] at hr
        rcases hr with hr | hr
        · rw [hr]
          exact ⟨hstep.1, hstep.2⟩
        · exact ih (s.splice e.1 e.2.1 e.2.2).1 hstep.1 r hr

theorem c4_witness :
    indexHandlesOk (ReactiveArray.mk ([10, 20, 30] : List ℤ) [0, 1, 2]) ∧
    ∀ r ∈ spliceSeq (ReactiveArray.mk ([10, 20, 30] : List ℤ) [0, 1, 2])
        [(1, 1, [7, 8]), (0, 2, [])],
      indexHandlesOk r.1 ∧ ∀ x ∈ r.2, x = -1 := by
  refine ⟨by decide, ?_⟩
  exact c4_splice_index_handles (ReactiveArray.mk ([10, 20, 30] : List ℤ) [0, 1, 2])
    [(1, 1, [7, 8]), (0, 2, [])] (by decide)

/--
C5.  `splice(start, deleteCount, ...items)` with `start` greater than the
current item count throws a `RangeError` before any mutation, leaving items
and index handles unchanged; with `start` at most the item count it succeeds
and returns exactly the removed items (the `deleteCount` items starting at
`start`, clamped to the array's end).
-/
theorem c5_splice_range_check (s : ReactiveArray α) (start d : Nat) (items : List α) :
    (s.items.length < start →
      (s.splice start d items).1 = s ∧
      ∃ msg, (s.splice start d items).2 = Except.error msg) ∧
    (start ≤ s.items.length →
      ∃ rem, (s.splice start d items).2 =
        Except.ok ((s.items.drop start).take d, rem)) := by
  constructor
  · intro h
    exact splice_eq_of_gt s start d items h
  · intro h
    rw [splice_eq_of_le s start d items h]
    exact ⟨(adjustIndices s.indices start d items.length).2, rfl⟩

theorem c5_witness :
    ((ReactiveArray.mk ([10, 20] : List ℤ) [0, 1]).splice 5 0 []).1 =
        ReactiveArray.mk ([10, 20] : List ℤ) [0, 1] ∧
    ∃ rem, ((ReactiveArray.mk ([10, 20] : List ℤ) [0, 1]).splice 1 1 [7]).2 =
        Except.ok ([20], rem) := by
  constructor
  · exact ((c5_splice_range_check (ReactiveArray.mk ([10, 20] : List ℤ) [0, 1])
      5 0 []).1 (by decide)).1
  · obtain ⟨rem, hrem⟩ := (c5_splice_range_check
      (ReactiveArray.mk ([10, 20] : List ℤ) [0, 1]) 1 1 [7]).2 (by decide)
    refine ⟨rem, ?_⟩
    rw [hrem]
    rfl

/--
C7.  `splice(0, 0, ...X)` immediately followed by `splice(0, X.length)`
restores the list's observable content: the item array read afterwards
equals the item array before the two edits.
-/
theorem c7_splice_round_trip (s : ReactiveArray α) (X : List α) :
    (((s.splice 0 0 X).1).splice 0 X.length []).1.items = s.items := by
  unfold ReactiveArray.splice jsSplice
  simp

/--
C8.  `ReactiveArray.slice(start, end)` defaults `end` to
`this.#value.length - 1`, so the derived sliced array initially excludes the
source's last element: `slice(0)` with the end argument omitted yields all
items but the last (in particular, one fewer item than the source).
-/
theorem c8_slice_default_end (s : ReactiveArray α) (start : Nat) :
    s.sliceInit start none = jsArraySlice s.items start (s.items.length - 1) ∧
    s.sliceInit 0 none = s.items.dropLast ∧
    (s.sliceInit 0 none).length = s.items.length - 1 := by
  refine ⟨rfl, ?_, ?_⟩
  · unfold ReactiveArray.sliceInit jsArraySlice
    simp [List.dropLast_eq_take]
  · unfold ReactiveArray.sliceInit jsArraySlice
    simp

end ReactiveArrayLemmas

section FilterModel

variable {α : Type}

/--
One entry of the `maskArray` maintained by `ReactiveArray.filter`: `index`
is the position in the filtered output of this source item if it passes the
predicate, otherwise the position of the last passing item before it (or
`-1`); `visible` is the source field `show` (whether the item currently
passes the predicate).
-/
structure MaskEntry where
  index : Int
  visible : Bool
deriving DecidableEq

/--
The item loop of the `filter` subscription callback:
```js
for (const [i, item] of items.entries()) {
    const sourceIndex = start + i;
    const showThis = callback(item, sourceIndex, this.#value);
    if (showThis) {
        currentIndex++;
    }
    const current = { index: currentIndex, show: showThis };
    maskArray.splice(sourceIndex, 0, current);
    if (showThis) {
        newItems.push(item);
    }
}
```
Given the starting `currentIndex` value, returns the mask entries inserted
(in order, forming a contiguous block at `start`) and `newItems`.  The
claims quantify over predicates of the item alone, so `pred` takes only the
item (the source also passes the source index and the source array).
-/
def insertLoop (pred : α → Bool) : Int → List α → List MaskEntry × List α
  | _, [] => ([], [])
  | cur, x :: xs =>
    (MaskEntry.mk (if pred x then cur + 1 else cur) (pred x) ::
        (insertLoop pred (if pred x then cur + 1 else cur) xs).1,
      if pred x then x :: (insertLoop pred (if pred x then cur + 1 else cur) xs).2
      else (insertLoop pred (if pred x then cur + 1 else cur) xs).2)

/-- The mask entries the loop builds for `xs` starting from `currentIndex = c`. -/
def maskOf (pred : α → Bool) (c : Int) (xs : List α) : List MaskEntry :=
  (insertLoop pred c xs).1

/--
The subscription callback installed by `ReactiveArray.filter` on the source
array, acting on the state `(maskArray, filteredArray-items)`:
```js
this.bind((start, deletes, ...items) => {
    const lastInMask = maskArray.slice(0, start).reverse().find(v => v.show);
    const newItems = [];
    let currentIndex = (lastInMask?.index ?? -1);
    const deletedMaskEntries = deletes ? maskArray.splice(start, deletes) : [];
    for (const [i, item] of items.entries()) { ... }  // insertLoop
    const deletedItemCount = deletedMaskEntries.filter(v => v.show).length;
    if (newItems.length || deletedItemCount) {
        filteredArray.splice((lastInMask?.index ?? -1) + 1, deletedItemCount, ...newItems);
    }
    const shiftTailBy = newItems.length - deletedItemCount;
    if (shiftTailBy) {
        for (let i = start + items.length; i < maskArray.length; i++) {
            maskArray[i].index += shiftTailBy;
        }
    }
});
```
`filteredArray.splice` is `ReactiveArray.splice`, modelled here on the item
list (its `start` argument, an `Int` in the source, is non-negative whenever
the mask invariant holds).
-/
def filterStep (pred : α → Bool) (mask : List MaskEntry) (filtered : List α)
    (start deletes : Nat) (items : List α) : List MaskEntry × List α :=
  let lastIdx : Int :=
    (((mask.take start).reverse.find? (fun v => v.visible)).map (fun v => v.index)).getD (-1)
  let deletedMaskEntries : List MaskEntry :=
    if deletes ≠ 0 then (mask.drop start).take deletes else []
  let maskAfterDelete : List MaskEntry :=
    if deletes ≠ 0 then mask.take start ++ mask.drop (start + deletes) else mask
  let ins := insertLoop pred lastIdx items
  let maskAfterInsert : List MaskEntry :=
    maskAfterDelete.take start ++ ins.1 ++ maskAfterDelete.drop start
  let deletedItemCount : Nat := deletedMaskEntries.countP (fun v => v.visible)
  let filteredAfter : List α :=
    if ins.2.length ≠ 0 ∨ deletedItemCount ≠ 0 then
      filtered.take (lastIdx + 1).toNat ++ ins.2 ++
        filtered.drop ((lastIdx + 1).toNat + deletedItemCount)
    else filtered
  let shiftTailBy : Int := (ins.2.length : Int) - (deletedItemCount : Int)
  let maskAfterShift : List MaskEntry :=
    if shiftTailBy ≠ 0 then
      maskAfterInsert.take (start + items.length) ++
        (maskAfterInsert.drop (start + items.length)).map
          (fun v => MaskEntry.mk (v.index + shiftTailBy) v.visible)
    else maskAfterInsert
  (maskAfterShift, filteredAfter)

/--
The consistency invariant tying a filter's internal state to its source:
the mask is exactly what the loop would build for the whole source starting
from `currentIndex = -1`, and the filtered output is exactly the passing
source items in source order.  It holds on construction (`filter` starts
with an empty mask and an empty derived array and receives the initial
contents through the first `bind` callback).
-/
def filterStateOk (pred : α → Bool) (src : List α) (mask : List MaskEntry)
    (filtered : List α) : Prop :=
  mask = maskOf pred (-1) src ∧ filtered = src.filter pred

end FilterModel

section FilterLemmas

variable {α : Type}

theorem maskOf_nil (pred : α → Bool) (c : Int) : maskOf pred c [] = [] := rfl

theorem maskOf_cons (pred : α → Bool) (c : Int) (x : α) (xs : List α) :
    maskOf pred c (x :: xs) =
      MaskEntry.mk (if pred x then c + 1 else c) (pred x) ::
        maskOf pred (if pred x then c + 1 else c) xs := rfl

theorem insertLoop_snd (pred : α → Bool) (c : Int) (xs : List α) :
    (insertLoop pred c xs).2 = xs.filter pred := by
  induction xs generalizing c with
  | nil => rfl
  | cons x xs ih =>
      by_cases h : pred x <;> simp [insertLoop, h, ih, List.filter_cons]

theorem maskOf_length (pred : α → Bool) (c : Int) (xs : List α) :
    (maskOf pred c xs).length = xs.length := by
  induction xs generalizing c with
  | nil => rfl
  | cons x xs ih => simp [maskOf_cons, ih]

theorem maskOf_take (pred : α → Bool) (c : Int) (xs : List α) (k : Nat) :
    (maskOf pred c xs).take k = maskOf pred c (xs.take k) := by
  induction xs generalizing c k with
  | nil => simp [maskOf_nil]
  | cons x xs ih =>
      cases k with
      | zero => simp [maskOf_nil]
      | succ k => simp [maskOf_cons, List.take_succ_cons, ih]


theorem maskOf_congr (pred : α → Bool) (c1 c2 : Int) (xs : List α) (h : c1 = c2) :
    maskOf pred c1 xs = maskOf pred c2 xs := by
  rw [h]

theorem maskOf_drop (pred : α → Bool) (c : Int) (xs : List α) (k : Nat) :
    (maskOf pred c xs).drop k =
      maskOf pred (c + ((xs.take k).countP pred : Int)) (xs.drop k) := by
  induction xs generalizing c k with
  | nil => simp [maskOf_nil]
  | cons x xs ih =>
      cases k with
      | zero => simp [maskOf_cons]
      | succ k =>
          rw [maskOf_cons, List.drop_succ_cons, List.take_succ_cons, List.drop_succ_cons, ih]
          by_cases hp : pred x = true
          · have e : (if pred x then c + 1 else c) = c + 1 := by simp [hp]
            rw [e, List.countP_cons_of_pos _ _ (by simp [hp])]
            exact maskOf_congr _ _ _ _ (by omega)
          · have e : (if pred x then c + 1 else c) = c := by simp [hp]
            rw [e, List.countP_cons_of_neg _ _ (by simp [hp])]

theorem maskOf_append (pred : α → Bool) (c : Int) (xs ys : List α) :
    maskOf pred c (xs ++ ys) =
      maskOf pred c xs ++ maskOf pred (c + (xs.countP pred : Int)) ys := by
  induction xs generalizing c with
  | nil => simp [maskOf_nil]
  | cons x xs ih =>
      rw [List.cons_append, maskOf_cons, maskOf_cons, ih, List.cons_append]
      by_cases hp : pred x = true
      · have e : (if pred x then c + 1 else c) = c + 1 := by simp [hp]
        rw [e, List.countP_cons_of_pos _ _ (by simp [hp])]
        rw [maskOf_congr pred (c + 1 + (xs.countP pred : Int))
          (c + ((xs.countP pred + 1 : Nat) : Int)) ys (by omega)]
      · have e : (if pred x then c + 1 else c) = c := by simp [hp]
        rw [e, List.countP_cons_of_neg _ _ (by simp [hp])]

theorem maskOf_countP (pred : α → Bool) (c : Int) (xs : List α) :
    (maskOf pred c xs).countP (fun v => v.visible) = xs.countP pred := by
  induction xs generalizing c with
  | nil => rfl
  | cons x xs ih =>
      by_cases hp : pred x = true
      · rw [maskOf_cons, List.countP_cons_of_pos _ _ (by simp [hp]),
          List.countP_cons_of_pos _ _ (by simp [hp]), ih]
      · rw [maskOf_cons, List.countP_cons_of_neg _ _ (by simp [hp]),
          List.countP_cons_of_neg _ _ (by simp [hp]), ih]

theorem maskOf_map_shift (pred : α → Bool) (c s : Int) (xs : List α) :
    (maskOf pred c xs).map (fun v => MaskEntry.mk (v.index + s) v.visible) =
      maskOf pred (c + s) xs := by
  induction xs generalizing c with
  | nil => rfl
  | cons x xs ih =>
      rw [maskOf_cons, List.map_cons, ih, maskOf_cons]
      by_cases hp : pred x = true
      · have e : (if pred x then c + 1 else c) = c + 1 := by simp [hp]
        have e2 : (if pred x then c + s + 1 else c + s) = c + s + 1 := by simp [hp]
        rw [e, e2]
        have b : c + 1 + s = c + s + 1 := by ring
        rw [b]
      · have e : (if pred x then c + 1 else c) = c := by simp [hp]
        have e2 : (if pred x then c + s + 1 else c + s) = c + s := by simp [hp]
        rw [e, e2]

theorem maskOf_find_visible (pred : α → Bool) (c : Int) (xs : List α) :
    (maskOf pred c xs).reverse.find? (fun v => v.visible) =
      (if xs.countP pred = 0 then none
       else some (MaskEntry.mk (c + (xs.countP pred : Int)) true)) := by
  induction xs generalizing c with
  | nil => simp [maskOf_nil]
  | cons x xs ih =>
      rw [maskOf_cons, List.reverse_cons, List.find?_append, ih]
      by_cases hp : pred x = true
      · have e : (if pred x then c + 1 else c) = c + 1 := by simp [hp]
        rw [e, List.countP_cons_of_pos _ _ (by simp [hp])]
        have hc2 : ¬ (xs.countP pred + 1 = 0) := by omega
        by_cases hc : xs.countP pred = 0
        · rw [if_pos hc, if_neg hc2, Option.none_or]
          have b : c + ((xs.countP pred + 1 : Nat) : Int) = c + 1 := by omega
          rw [b]
          simp [List.find?, hp]
        · rw [if_neg hc, if_neg hc2]
          have b : c + 1 + ((xs.countP pred : Nat) : Int) =
              c + ((xs.countP pred + 1 : Nat) : Int) := by omega
          rw [b]
          rfl
      · have e : (if pred x then c + 1 else c) = c := by simp [hp]
        rw [e, List.countP_cons_of_neg _ _ (by simp [hp])]
        by_cases hc : xs.countP pred = 0
        · rw [if_pos hc, Option.none_or]
          simp [List.find?, hp]
        · rw [if_neg hc]
          rfl

theorem lastIdx_maskOf (pred : α → Bool) (xs : List α) :
    ((((maskOf pred (-1) xs).reverse.find? (fun v => v.visible)).map
        (fun v => v.index)).getD (-1)) = -1 + (xs.countP pred : Int) := by
  rw [maskOf_find_visible]
  by_cases hc : xs.countP pred = 0
  · simp [hc]
  · simp [hc]

end FilterLemmas

section FilterMain

variable {α : Type}

theorem filterStep_fst (pred : α → Bool) (src : List α) (start deletes : Nat)
    (items : List α) (hstart : start ≤ src.length) :
    (filterStep pred (maskOf pred (-1) src) (src.filter pred) start deletes items).1 =
      maskOf pred (-1) (src.take start ++ items ++ src.drop (start + deletes)) := by
  have hLen : (src.take start).length = start := by
    rw [List.length_take]
    omega
  have hL : ((((maskOf pred (-1) src).take start).reverse.find? (fun v => v.visible)).map
      (fun v => v.index)).getD (-1) = -1 + ((src.take start).countP pred : Int) := by
    rw [maskOf_take]
    exact lastIdx_maskOf pred (src.take start)
  have hclen : (items.filter pred).length = items.countP pred := by
    rw [List.countP_eq_length_filter]
  have hDELMASK : (if deletes ≠ 0
        then ((maskOf pred (-1) src).drop start).take deletes else []) =
      maskOf pred (-1 + ((src.take start).countP pred : Int)) ((src.drop start).take deletes) := by
    by_cases hd : deletes = 0
    · subst hd
      simp [maskOf_nil]
    · rw [if_pos hd, maskOf_drop, maskOf_take]
  have hMAD : (if deletes ≠ 0
        then (maskOf pred (-1) src).take start ++ (maskOf pred (-1) src).drop (start + deletes)
        else maskOf pred (-1) src) =
      maskOf pred (-1) (src.take start) ++
        maskOf pred (-1 + ((src.take start).countP pred : Int) +
          (((src.drop start).take deletes).countP pred : Int)) (src.drop (start + deletes)) := by
    by_cases hd : deletes = 0
    · subst hd
      rw [if_neg (by simp)]
      conv_lhs => rw [← List.take_append_drop start src]
      rw [maskOf_append]
      simp only [List.take_zero, List.countP_nil, Nat.cast_zero, add_zero, Nat.add_zero]
    · rw [if_pos hd, maskOf_take, maskOf_drop]
      congr 1
      apply maskOf_congr
      rw [List.take_add, List.countP_append]
      push_cast
      ring
  have hlenP : (maskOf pred (-1) (src.take start)).length = start := by
    rw [maskOf_length, hLen]
  unfold filterStep
  simp only []
  rw [hL]
  rw [show (insertLoop pred (-1 + ((src.take start).countP pred : Int)) items).1 =
    maskOf pred (-1 + ((src.take start).countP pred : Int)) items from rfl]
  rw [insertLoop_snd, hclen, hDELMASK, maskOf_countP, hMAD]
  rw [List.take_left' hlenP, List.drop_left' hlenP]
  have hPIlen : (maskOf pred (-1) (src.take start) ++
      maskOf pred (-1 + ((src.take start).countP pred : Int)) items).length =
      start + items.length := by
    rw [List.length_append, maskOf_length, maskOf_length, hLen]
  by_cases hstb : ((items.countP pred : Int) - ((((src.drop start).take deletes).countP pred : Nat) : Int)) = 0
  · rw [if_neg (not_not_intro hstb)]
    rw [maskOf_append, maskOf_append, List.countP_append]
    congr 1
    apply maskOf_congr
    omega
  · rw [if_pos hstb]
    rw [List.take_left' hPIlen, List.drop_left' hPIlen, maskOf_map_shift]
    rw [maskOf_append, maskOf_append, List.countP_append]
    congr 1
    apply maskOf_congr
    omega

theorem filterStep_snd (pred : α → Bool) (src : List α) (start deletes : Nat)
    (items : List α) (_hstart : start ≤ src.length) :
    (filterStep pred (maskOf pred (-1) src) (src.filter pred) start deletes items).2 =
      (src.take start ++ items ++ src.drop (start + deletes)).filter pred := by
  have hL : ((((maskOf pred (-1) src).take start).reverse.find? (fun v => v.visible)).map
      (fun v => v.index)).getD (-1) = -1 + ((src.take start).countP pred : Int) := by
    rw [maskOf_take]
    exact lastIdx_maskOf pred (src.take start)
  have hclen : (items.filter pred).length = items.countP pred := by
    rw [List.countP_eq_length_filter]
  have hDELMASK : (if deletes ≠ 0
        then ((maskOf pred (-1) src).drop start).take deletes else []) =
      maskOf pred (-1 + ((src.take start).countP pred : Int)) ((src.drop start).take deletes) := by
    by_cases hd : deletes = 0
    · subst hd
      simp [maskOf_nil]
    · rw [if_pos hd, maskOf_drop, maskOf_take]
  have h1 : (src.drop start).drop deletes = src.drop (start + deletes) := by
    rw [List.drop_drop, Nat.add_comm]
  have hBC : (src.drop start).take deletes ++ src.drop (start + deletes) = src.drop start := by
    rw [← h1, List.take_append_drop]
  have hsplit : src.take start ++ ((src.drop start).take deletes ++ src.drop (start + deletes))
      = src := by
    rw [hBC, List.take_append_drop]
  have hAflen : ((src.take start).filter pred).length = (src.take start).countP pred := by
    rw [List.countP_eq_length_filter]
  have hFsplit2 : src.filter pred =
      (src.take start).filter pred ++
        (((src.drop start).take deletes).filter pred ++
          (src.drop (start + deletes)).filter pred) := by
    conv_lhs => rw [← hsplit]
    rw [List.filter_append, List.filter_append]
  have hFsplit1 : src.filter pred =
      ((src.take start).filter pred ++ ((src.drop start).take deletes).filter pred) ++
        (src.drop (start + deletes)).filter pred := by
    rw [hFsplit2, List.append_assoc]
  have htake : (src.filter pred).take ((src.take start).countP pred) =
      (src.take start).filter pred := by
    rw [hFsplit2]
    exact List.take_left' hAflen
  have hABflen : ((src.take start).filter pred ++
      ((src.drop start).take deletes).filter pred).length =
      (src.take start).countP pred + ((src.drop start).take deletes).countP pred := by
    rw [List.length_append, ← List.countP_eq_length_filter, ← List.countP_eq_length_filter]
  have hdrop : (src.filter pred).drop
      ((src.take start).countP pred + ((src.drop start).take deletes).countP pred) =
      (src.drop (start + deletes)).filter pred := by
    rw [hFsplit1]
    exact List.drop_left' hABflen
  have hT : ((-1 : Int) + ((src.take start).countP pred : Int) + 1).toNat =
      (src.take start).countP pred := by
    omega
  unfold filterStep
  simp only []
  rw [hL, insertLoop_snd, hclen, hDELMASK, maskOf_countP, hT]
  by_cases hcond : items.countP pred ≠ 0 ∨ ((src.drop start).take deletes).countP pred ≠ 0
  · rw [if_pos hcond, htake, hdrop]
    rw [List.filter_append, List.filter_append]
  · rw [if_neg hcond]
    have h2a : items.countP pred = 0 := not_not.mp (not_or.mp hcond).1
    have h2b : ((src.drop start).take deletes).countP pred = 0 := not_not.mp (not_or.mp hcond).2
    have hIf : items.filter pred = [] := by
      apply List.eq_nil_of_length_eq_zero
      rw [← List.countP_eq_length_filter]
      exact h2a
    have hBf : ((src.drop start).take deletes).filter pred = [] := by
      apply List.eq_nil_of_length_eq_zero
      rw [← List.countP_eq_length_filter]
      exact h2b
    rw [List.filter_append, List.filter_append, hIf, List.append_nil, hFsplit2, hBf,
      List.nil_append]

/--
C6.  Correctness of the incrementally maintained filtered view.  Whenever the
filter state (mask array and filtered items) is consistent with the source —
as it is on construction, starting from the empty source — processing one
source edit `(start, deletes, items)` through the subscription callback
leaves it consistent with the edited source; in particular, the filtered
list afterwards is exactly the edited source's items satisfying the
predicate, in source order.  Instantiated at source `[1,2,3,4,5]` with
predicate "is even", the initial full-insert edit yields filtered `[2,4]`,
and a subsequent `splice(5, 0, 6)` edit yields filtered `[2,4,6]` (see the
witness).
-/
theorem c6_filter_incremental (pred : α → Bool) (src : List α)
    (mask : List MaskEntry) (filtered : List α) (start deletes : Nat) (items : List α)
    (hinv : filterStateOk pred src mask filtered) (hstart : start ≤ src.length) :
    filterStateOk pred (src.take start ++ items ++ src.drop (start + deletes))
      (filterStep pred mask filtered start deletes items).1
      (filterStep pred mask filtered start deletes items).2 := by
  obtain ⟨hm, hf⟩ := hinv
  subst hm
  subst hf
  exact ⟨filterStep_fst pred src start deletes items hstart,
    filterStep_snd pred src start deletes items hstart⟩

end FilterMain

theorem c6_witness :
    (filterStep (fun n : Int => n % 2 == 0) [] [] 0 0 [1, 2, 3, 4, 5]).2 = [2, 4] ∧
    (filterStep (fun n : Int => n % 2 == 0)
        (filterStep (fun n : Int => n % 2 == 0) [] [] 0 0 [1, 2, 3, 4, 5]).1
        (filterStep (fun n : Int => n % 2 == 0) [] [] 0 0 [1, 2, 3, 4, 5]).2
        5 0 [6]).2 = [2, 4, 6] := by
  have h1 := c6_filter_incremental (fun n : Int => n % 2 == 0) [] [] [] 0 0
    [1, 2, 3, 4, 5] ⟨rfl, rfl⟩ (Nat.zero_le _)
  have h2 := c6_filter_incremental (fun n : Int => n % 2 == 0)
    (([] : List Int).take 0 ++ [1, 2, 3, 4, 5] ++ ([] : List Int).drop 0)
    (filterStep (fun n : Int => n % 2 == 0) [] [] 0 0 [1, 2, 3, 4, 5]).1
    (filterStep (fun n : Int => n % 2 == 0) [] [] 0 0 [1, 2, 3, 4, 5]).2
    5 0 [6] h1 (by decide)
  refine ⟨?_, ?_⟩
  · rw [h1.2]
    decide
  · rw [h2.2]
    decide

section StringifyModel

/--
Model of the JavaScript values the engine's stringification receives: the
four suppressed primitives, plus integers and strings as representatives of
"every other value" (`makeNonPrimitiveItemsReactive` and `valueToFragment`
hand `stringifyValue` only non-`Node`, non-array values).
-/
inductive JSValue where
  | undef
  | nullv
  | boolean (b : Bool)
  | number (n : Int)
  | string (s : String)
deriving DecidableEq

/-- JavaScript `String(input)` on the modelled values. -/
def jsString : JSValue → String
  | JSValue.undef => "undefined"
  | JSValue.nullv => "null"
  | JSValue.boolean true => "true"
  | JSValue.boolean false => "false"
  | JSValue.number n => toString n
  | JSValue.string s => s

/--
```js
const nonRenderedValues = new Set([
    undefined,
    null,
    true,
    false,
]);
```
-/
def nonRenderedValues : List JSValue :=
  [JSValue.undef, JSValue.nullv, JSValue.boolean true, JSValue.boolean false]

/-- `const shouldBeRendered = (input) => !nonRenderedValues.has(input);` -/
def shouldBeRendered (input : JSValue) : Bool :=
  ! nonRenderedValues.contains input

/--
```js
const stringifyValue = (input) => (shouldBeRendered(input)
    ? String(input)
    : "");
```
-/
def stringifyValue (input : JSValue) : String :=
  if shouldBeRendered input then jsString input else ""

end StringifyModel

/--
C10.  The engine's stringification renders exactly the four values
`undefined`, `null`, `true`, `false` — the members of `nonRenderedValues` —
as the empty string (they produce no visible text), and renders every other
value as its standard string conversion `String(input)`.
-/
theorem c10_stringify_nonrendered :
    (∀ v ∈ nonRenderedValues, stringifyValue v = "") ∧
    (∀ v : JSValue, v ∉ nonRenderedValues → stringifyValue v = jsString v) ∧
    nonRenderedValues =
      [JSValue.undef, JSValue.nullv, JSValue.boolean true, JSValue.boolean false] := by
  refine ⟨?_, ?_, rfl⟩
  · intro v hv
    simp only [nonRenderedValues] at hv
    fin_cases hv <;> rfl
  · intro v hv
    cases v with
    | undef => exact absurd (by simp [nonRenderedValues]) hv
    | nullv => exact absurd (by simp [nonRenderedValues]) hv
    | boolean b =>
        cases b
        · exact absurd (by simp [nonRenderedValues]) hv
        · exact absurd (by simp [nonRenderedValues]) hv
    | number n => simp [stringifyValue, shouldBeRendered, nonRenderedValues]
    | string s => simp [stringifyValue, shouldBeRendered, nonRenderedValues]

theorem c10_witness :
    stringifyValue (JSValue.number 7) = "7" ∧ stringifyValue JSValue.undef = "" := by
  constructor
  · have h := c10_stringify_nonrendered.2.1 (JSValue.number 7) (by decide)
    rw [h]
    rfl
  · exact c10_stringify_nonrendered.1 JSValue.undef (by decide)
